import Mathlib

/-!
Shallow embedding of the poker-server core (table engine, pot engine,
betting rounds, session store) together with proofs about the embedded
operations.  Every definition mirrors one Python function of the
repository; money amounts are modelled as `Int` (Python integers are
unbounded and signed), finite dictionaries as association lists in
insertion order, and Python exceptions as `Except`/`Option` results
produced before any mutation, exactly as the source raises before
mutating.
-/

namespace Poker

/-- Card suits, `deck.py Suit` (declaration order hearts, diamonds,
clubs, spades). -/
inductive Suit where
  | hearts | diamonds | clubs | spades
deriving DecidableEq, Repr

/-- A playing card, `deck.py Card`: a rank `2..14` (14 = ace) and a suit. -/
structure Card where
  rank : Nat
  suit : Suit
deriving DecidableEq, Repr

/-- All ranks in declaration order, `deck.py Rank`. -/
def allRanks : List Nat := [2, 3, 4, 5, 6, 7, 8, 9, 10, 11, 12, 13, 14]

/-- All suits in declaration order, `deck.py Suit`. -/
def allSuits : List Suit := [.hearts, .diamonds, .clubs, .spades]

/-- The fresh 52-card deck built by `Deck.reset` before shuffling:
`[Card(rank, suit) for suit in Suit for rank in Rank]`. -/
def standard52 : List Card :=
  allSuits.flatMap (fun s => allRanks.map (fun r => ⟨r, s⟩))

/-- A deck is its remaining ordered card list, `deck.py Deck._cards`. -/
structure Deck where
  cards : List Card
deriving DecidableEq, Repr

namespace Deck

/-- `Deck.deal(count)`: raises `ValueError` when `count` exceeds the
remaining cards (first component `none`, deck untouched); otherwise pops
`count` cards off the front.  The pair is (dealt cards or error, deck
afterwards). -/
def deal (d : Deck) (count : Nat) : Option (List Card) × Deck :=
  if count > d.cards.length then
    (none, d)
  else
    (some (d.cards.take count), ⟨d.cards.drop count⟩)

/-- Number of remaining cards, `Deck.remaining` / `len(deck)`. -/
def remaining (d : Deck) : Nat := d.cards.length

end Deck

/-- A seated player, `player.py Player`.  `holeCards`, flags and money
fields mirror the dataclass; `timeBank` is dropped-in as an `Int`
(seconds) since no claim depends on fractional seconds. -/
structure Player where
  userId : String
  username : String
  seat : Nat
  chips : Int := 0
  holeCards : List Card := []
  isFolded : Bool := false
  isAllIn : Bool := false
  currentBet : Int := 0
  isSittingOut : Bool := false
  isDisconnected : Bool := false
deriving DecidableEq, Repr

instance : Inhabited Player := ⟨{ userId := "", username := "", seat := 0 }⟩

namespace Player

/-- `Player.bet(amount)`: moves `min(amount, chips)` from the stack to
the current wager, setting the all-in flag when the stack reaches 0.
Returns (actual amount bet, updated player). -/
def betAct (p : Player) (amount : Int) : Int × Player :=
  let actual := min amount p.chips
  let chips' := p.chips - actual
  (actual,
    { p with
      chips := chips'
      currentBet := p.currentBet + actual
      isAllIn := if chips' = 0 then true else p.isAllIn })

/-- `Player.fold()`. -/
def fold (p : Player) : Player := { p with isFolded := true }

/-- `Player.receive_cards(cards)`. -/
def receiveCards (p : Player) (cards : List Card) : Player :=
  { p with holeCards := cards }

/-- `Player.win_pot(amount)`: credits the stack; no flag is touched. -/
def winPot (p : Player) (amount : Int) : Player :=
  { p with chips := p.chips + amount }

/-- `Player.reset_for_new_hand()` with no time-bank replenishment (the
table calls it with the default argument). -/
def resetForNewHand (p : Player) : Player :=
  { p with holeCards := [], isFolded := false, isAllIn := false, currentBet := 0 }

/-- `Player.is_active`: unfolded, not sitting out, holding cards. -/
def isActive (p : Player) : Bool :=
  !p.isFolded && !p.isSittingOut && decide (p.holeCards.length > 0)

/-- `Player.can_act`: active and not all-in. -/
def canAct (p : Player) : Bool :=
  p.isActive && !p.isAllIn

end Player

/-- The `all_in ⇒ stack == 0` invariant of the spec's data model. -/
def allInInvariant (p : Player) : Prop := p.isAllIn = true → p.chips = 0

/-! ## Session store (`src/state/session_store.py`)

The per-table disconnected hash `table:{id}:disconnected` is modelled as
an association list `user_id ↦ grace_expires`; timestamps are `Int`
(only order comparisons occur in the source). -/

/-- Tombstone map of one table: user id to `grace_expires`. -/
def TombMap := List (String × Int)

instance : DecidableEq TombMap := by unfold TombMap; infer_instance

/-- `hget`: association-list lookup, first match. -/
def tombLookup (m : TombMap) (userId : String) : Option Int :=
  match m with
  | [] => none
  | (u, e) :: rest => if u = userId then some e else tombLookup rest userId

/-- `hdel`: drop the entry of a user. -/
def tombDelete (m : TombMap) (userId : String) : TombMap :=
  match m with
  | [] => []
  | (u, e) :: rest =>
      if u = userId then tombDelete rest userId
      else (u, e) :: tombDelete rest userId

/-- `SessionStore.mark_reconnected(user, table)`: looks the user up in
the table's disconnected hash; absent ⇒ `False`; `now > grace_expires`
⇒ `False` (entry kept); otherwise the entry is deleted and the result is
`True`.  The pair is (returned bool, hash afterwards). -/
def markReconnected (m : TombMap) (userId : String) (now : Int) : Bool × TombMap :=
  match tombLookup m userId with
  | none => (false, m)
  | some expires =>
      if now > expires then (false, m)
      else (true, tombDelete m userId)

/-! ## Betting round (`src/game/betting.py`) -/

/-- `betting.py ActionType`. -/
inductive ActionType where
  | fold | check | call | bet | raiseTo | allIn
deriving DecidableEq, Repr

/-- `betting.py Action`: a type plus a declared amount (default 0). -/
structure Action where
  type : ActionType
  amount : Int := 0
deriving DecidableEq, Repr

/-- `betting.py BettingRound` state.  The per-player action counter
dict `_actions_taken` is the function `actionsTaken` (missing keys read
as 0, as `dict.get(uid, 0)` does). -/
structure BettingRound where
  players : List Player
  smallBlind : Int
  bigBlind : Int
  isPreflop : Bool
  currentBet : Int
  minRaise : Int
  lastRaiser : Option String
  actionOn : Nat
  actionsTaken : String → Nat
  complete : Bool

namespace BettingRound

/-- `BettingRound.__init__`. -/
def init (players : List Player) (smallBlind bigBlind : Int) (isPreflop : Bool) :
    BettingRound :=
  { players := players
    smallBlind := smallBlind
    bigBlind := bigBlind
    isPreflop := isPreflop
    currentBet := 0
    minRaise := bigBlind
    lastRaiser := none
    actionOn := 0
    actionsTaken := fun _ => 0
    complete := false }

/-- The `for _ in range(len(players))` scan of `get_current_player`:
walks `action_on` forward past players who cannot act, returning the
first player who can (with the advanced counter), or `none` after
`fuel` steps. -/
def findActorLoop : Nat → List Player → Nat → Option Player × Nat
  | 0, _, a => (none, a)
  | fuel + 1, ps, a =>
      let p := ps.getD (a % ps.length) default
      if p.canAct then (some p, a) else findActorLoop fuel ps (a + 1)

/-- `BettingRound.get_current_player`: `none` when the round is already
complete; marks the round complete when nobody can act; otherwise scans
from `action_on`.  Returns the player (if any) together with the round
state after the call's side effects. -/
def getCurrentPlayer (br : BettingRound) : Option Player × BettingRound :=
  if br.complete then (none, br)
  else if br.players.all (fun p => !p.canAct) then (none, { br with complete := true })
  else
    match findActorLoop br.players.length br.players br.actionOn with
    | (some p, a) => (some p, { br with actionOn := a })
    | (none, a) => (none, { br with actionOn := a, complete := true })

/-- `BettingRound.get_valid_actions(player)`. -/
def getValidActions (br : BettingRound) (p : Player) : List ActionType :=
  let toCall := br.currentBet - p.currentBet
  let acts := [ActionType.fold] ++ (if toCall = 0 then [ActionType.check] else [ActionType.call])
  let acts := acts ++ (if p.chips > 0 then [ActionType.allIn] else [])
  let minRaiseTo := br.currentBet + br.minRaise
  acts ++
    (if p.chips + p.currentBet ≥ minRaiseTo then
      (if br.currentBet = 0 then [ActionType.bet] else [ActionType.raiseTo])
    else [])

/-- `BettingRound.get_call_amount(player)`. -/
def getCallAmount (br : BettingRound) (p : Player) : Int :=
  min (br.currentBet - p.currentBet) p.chips

/-- `BettingRound.get_min_raise()`: the minimum raise target total. -/
def getMinRaiseTarget (br : BettingRound) : Int :=
  br.currentBet + br.minRaise

/-- Python truthiness of `self.last_raiser`: `None` and the empty
string are both falsy. -/
def truthyRaiser (r : Option String) : Option String :=
  match r with
  | some s => if s = "" then none else some s
  | none => none

/-- `BettingRound._check_round_complete`, including the side effects of
the nested `get_current_player()` call in the reopened-raiser branch. -/
def checkRoundComplete (st : BettingRound) : BettingRound :=
  let activePlayers := st.players.filter (fun p => p.canAct)
  let nonFolded := st.players.filter (fun p => !p.isFolded)
  if activePlayers.length = 0 then { st with complete := true }
  else if nonFolded.length ≤ 1 then { st with complete := true }
  else
    let allMatched := nonFolded.all (fun p => decide (p.currentBet = st.currentBet) || p.isAllIn)
    let allActed := activePlayers.all (fun p => decide (st.actionsTaken p.userId > 0))
    match truthyRaiser st.lastRaiser with
    | some raiser =>
        let raiserCanAct := st.players.any (fun p => decide (p.userId = raiser) && p.canAct)
        if raiserCanAct then
          match getCurrentPlayer st with
          | (some cp, st') =>
              if cp.userId = raiser && allMatched then { st' with complete := true } else st'
          | (none, st') => st'
        else
          if allMatched && allActed then { st with complete := true } else st
    | none => if allMatched && allActed then { st with complete := true } else st

/-- `BettingRound.process_action(player, action)` where `i` is the
index of the acting player in `players` (the Python caller passes the
aliased object itself).  Raising `ValueError` is the `.error` result;
every raise in the source happens before any mutation, so the caller's
state is unchanged on error. -/
def processAction (br : BettingRound) (i : Nat) (a : Action) : Except String BettingRound :=
  let p := br.players.getD i default
  let valid := br.getValidActions p
  if a.type ∉ valid then .error "invalid action"
  else
    let finish := fun (players' : List Player) (cb mr : Int) (lr : Option String) =>
      Except.ok (checkRoundComplete
        { br with
          players := players'
          currentBet := cb
          minRaise := mr
          lastRaiser := lr
          actionsTaken := fun u =>
            if u = p.userId then br.actionsTaken u + 1 else br.actionsTaken u
          actionOn := (br.actionOn + 1) % br.players.length })
    match a.type with
    | .fold => finish (br.players.set i p.fold) br.currentBet br.minRaise br.lastRaiser
    | .check =>
        if br.currentBet ≠ p.currentBet then .error "cannot check"
        else finish br.players br.currentBet br.minRaise br.lastRaiser
    | .call =>
        let p' := (p.betAct (br.getCallAmount p)).2
        finish (br.players.set i p') br.currentBet br.minRaise br.lastRaiser
    | .bet =>
        if br.currentBet > 0 then .error "cannot bet over a bet"
        else if a.amount < br.bigBlind then .error "bet below big blind"
        else
          let p' := (p.betAct a.amount).2
          finish (br.players.set i p') p'.currentBet a.amount (some p.userId)
    | .raiseTo =>
        if a.amount < br.getMinRaiseTarget then .error "raise below minimum"
        else
          let p' := (p.betAct (a.amount - p.currentBet)).2
          let inc := p'.currentBet - br.currentBet
          finish (br.players.set i p') p'.currentBet (max br.minRaise inc) (some p.userId)
    | .allIn =>
        let p' := (p.betAct p.chips).2
        if p'.currentBet > br.currentBet then
          finish (br.players.set i p') p'.currentBet
            (max br.minRaise (p'.currentBet - br.currentBet)) (some p.userId)
        else
          finish (br.players.set i p') br.currentBet br.minRaise br.lastRaiser

/-- Run `process_action`, keeping the old state when it raises (used to
chain concrete traces). -/
def stepAction (br : BettingRound) (i : Nat) (a : Action) : BettingRound :=
  match processAction br i a with
  | .ok br' => br'
  | .error _ => br

end BettingRound

/-! ## Pot engine (`src/game/pot.py`) -/

/-- `pot.py SidePot`. -/
structure SidePot where
  amount : Int
  eligiblePlayers : List String
deriving DecidableEq, Repr

/-- `pot.py Pot`: running total, derived side pots, and the
`user → total contributed` dict in insertion order. -/
structure Pot where
  mainPot : Int := 0
  sidePots : List SidePot := []
  contributions : List (String × Int) := []
deriving DecidableEq, Repr

/-- Dict write of `Pot.add_bet`: bump an existing key or append a new
one at the end (Python dicts preserve insertion order). -/
def contribAdd : List (String × Int) → String → Int → List (String × Int)
  | [], userId, amount => [(userId, amount)]
  | (u, v) :: rest, userId, amount =>
      if u = userId then (u, v + amount) :: rest
      else (u, v) :: contribAdd rest userId amount

/-- Dict read with default 0, `Pot.get_contribution`. -/
def contribGet : List (String × Int) → String → Int
  | [], _ => 0
  | (u, v) :: rest, userId => if u = userId then v else contribGet rest userId

namespace Pot

/-- `Pot.add_bet(user_id, amount)`. -/
def addBet (pot : Pot) (userId : String) (amount : Int) : Pot :=
  { pot with
    contributions := contribAdd pot.contributions userId amount
    mainPot := pot.mainPot + amount }

end Pot

/-- One contributor's share of the pot built at all-in level `L` with
previous level `P`: `min(contrib - prev, level - prev)` counted only
when positive. -/
def levelShare (P L c : Int) : Int :=
  let x := min (c - P) (L - P)
  if x > 0 then x else 0

/-- The amount of the pot built at one all-in level: the sum of the
still-eligible contributors' shares. -/
def levelPotAmount (contribs : List (String × Int)) (remaining : List String)
    (P L : Int) : Int :=
  (contribs.map (fun e => if e.1 ∈ remaining then levelShare P L e.2 else 0)).sum

/-- `remaining_players.discard` pass: drop the players whose recorded
all-in amount equals the level just processed. -/
def removeAtLevel (allIn : List (String × Int)) (L : Int) (remaining : List String) :
    List String :=
  remaining.filter (fun u => !(allIn.any (fun e => decide (e.1 = u) && decide (e.2 = L))))

/-- The `for level in sorted_all_ins` loop of `calculate_side_pots`:
returns the pots built (pots of amount 0 are skipped) and the final
still-eligible player set. -/
def sidePotsLoop (contribs allIn : List (String × Int)) :
    List Int → Int → List String → List SidePot × List String
  | [], _, remaining => ([], remaining)
  | L :: rest, P, remaining =>
      let amt := levelPotAmount contribs remaining P L
      let remaining' := removeAtLevel allIn L remaining
      let (pots, finalRemaining) := sidePotsLoop contribs allIn rest L remaining'
      (if amt > 0 then ⟨amt, remaining⟩ :: pots else pots, finalRemaining)

namespace Pot

/-- `Pot.calculate_side_pots(all_in_players)`: with no all-ins, one pot
of the whole total; otherwise one pot per distinct all-in level
(`sorted(set(...))`, ascending) plus a residual pot of
`main_pot - Σ built` for the remaining players when positive. -/
def calculateSidePots (pot : Pot) (allIn : List (String × Int)) : Pot :=
  if allIn.isEmpty then
    { pot with sidePots := [⟨pot.mainPot, pot.contributions.map Prod.fst⟩] }
  else
    let levels := List.insertionSort (· ≤ ·) (allIn.map Prod.snd).dedup
    let (pots, finalRemaining) :=
      sidePotsLoop pot.contributions allIn levels 0 (pot.contributions.map Prod.fst)
    let residual := pot.mainPot - (pots.map SidePot.amount).sum
    let pots :=
      if residual > 0 && !finalRemaining.isEmpty then
        pots ++ [⟨residual, finalRemaining⟩]
      else pots
    { pot with sidePots := pots }

end Pot

/-- Zero-defaulted dict write of `calculate_winnings`:
`winnings[winner] += amount`. -/
def addWinnings (w : String → Int) (userId : String) (amount : Int) : String → Int :=
  fun u => if u = userId then w u + amount else w u

/-- The `for i, winner in enumerate(winners)` loop of
`calculate_winnings`: winner `i` gets `share` plus one odd chip when
`i < remainder`. -/
def distributeLoop (share rem : Int) : List String → Nat → (String → Int) → (String → Int)
  | [], _, w => w
  | x :: xs, i, w =>
      distributeLoop share rem xs (i + 1)
        (addWinnings w x (share + (if (i : Int) < rem then 1 else 0)))

/-- The outer pot loop of `calculate_winnings` (pots with no recorded
winners, or an empty winner list, are skipped; `//` and `%` are
Python's floor division and modulo). -/
def winningsLoop (winnersByPot : Nat → Option (List String)) :
    List SidePot → Nat → (String → Int) → (String → Int)
  | [], _, w => w
  | sp :: rest, idx, w =>
      match winnersByPot idx with
      | none => winningsLoop winnersByPot rest (idx + 1) w
      | some winners =>
          if winners.isEmpty then winningsLoop winnersByPot rest (idx + 1) w
          else
            winningsLoop winnersByPot rest (idx + 1)
              (distributeLoop (Int.fdiv sp.amount winners.length)
                (Int.fmod sp.amount winners.length) winners 0 w)

/-- `pot.py calculate_winnings(side_pots, winners_by_pot)` as the final
`user → amount` map (absent users read 0). -/
def calculateWinnings (sidePots : List SidePot)
    (winnersByPot : Nat → Option (List String)) : String → Int :=
  winningsLoop winnersByPot sidePots 0 (fun _ => 0)

/-! ## Hand comparison and showdown winners
(`hand_eval.py compare_hands`, `table.py Table._showdown`) -/

/-- The `(category, tiebreaks)` value of a `hand_eval.py HandResult`;
hand evaluation itself produces these, comparison only reads them. -/
structure HandVal where
  rank : Nat
  values : List Int
deriving DecidableEq, Repr

/-- Python tuple `<` on the tiebreak vectors: lexicographic, a proper
prefix is smaller. -/
def valuesLt : List Int → List Int → Bool
  | [], [] => false
  | [], _ :: _ => true
  | _ :: _, [] => false
  | a :: as, b :: bs => if a < b then true else if b < a then false else valuesLt as bs

/-- `HandResult.__lt__`: category first, then tiebreak vector. -/
def hvLt (a b : HandVal) : Bool :=
  if a.rank ≠ b.rank then decide (a.rank < b.rank) else valuesLt a.values b.values

/-- `HandResult.__eq__`: equal category and equal tiebreak vector. -/
def hvEqb (a b : HandVal) : Bool :=
  decide (a.rank = b.rank) && decide (a.values = b.values)

/-- `sorted(results, key=lambda x: x[1], reverse=True)`: a stable
descending sort (insertion sort inserting before strictly weaker hands
keeps tied hands in input order, as Python's stable sort does). -/
def sortResultsDesc (results : List (String × HandVal)) : List (String × HandVal) :=
  List.insertionSort (fun x y => hvLt x.2 y.2 = false) results

/-- The grouping loop of `compare_hands`: walks the descending list,
collecting runs of equal hands into tie groups. -/
def compareLoop : List (String × HandVal) → HandVal → List String → List (List String)
  | [], _, cur => [cur]
  | (pid, hv) :: rest, curHand, cur =>
      if hvEqb hv curHand then compareLoop rest curHand (cur ++ [pid])
      else cur :: compareLoop rest hv [pid]

/-- `hand_eval.py compare_hands(results)`: ordered tie groups, best
first. -/
def compareHands (results : List (String × HandVal)) : List (List String) :=
  match sortResultsDesc results with
  | [] => []
  | (pid, hv) :: rest => compareLoop rest hv [pid]

/-- Winner determination of `Table._showdown` for one side pot: the
hands of eligible players, when any, are compared and the best tie
group wins; a pot with no eligible hand gets no entry. -/
def winnersForPot (handResults : List (String × HandVal)) (sp : SidePot) :
    Option (List String) :=
  let eligible := handResults.filter (fun e => e.1 ∈ sp.eligiblePlayers)
  if eligible.isEmpty then none
  else some ((compareHands eligible).getD 0 [])

/-- The winner-and-payout computation of `Table._showdown`, with the
per-player `evaluate_hand` results supplied as `handVals`
(`evaluate_hand` lives in `hand_eval.py`; only its output reaches this
code).  `players` is the table's seat dict in insertion order: the
showdown iterates `self.players.values()`, so hands are evaluated — and
tied winners listed — in dict insertion order, not in seat order. -/
def showdownWinnings (players : List (Nat × Player)) (handVals : String → HandVal)
    (sidePots : List SidePot) : String → Int :=
  let active := (players.map Prod.snd).filter (fun p => !p.isFolded && p.isActive)
  let handResults := active.map (fun p => (p.userId, handVals p.userId))
  calculateWinnings sidePots
    (fun idx =>
      match sidePots[idx]? with
      | some sp => winnersForPot handResults sp
      | none => none)

/-! ## Table state machine (`src/game/table.py`)

The seat dict `seat → Player` is an association list in insertion
order; Python mutates the shared `Player` objects in place, which is
rendered here as updating the entry whose key is the player's `seat`
field (the two agree on any table populated through `add_player`). -/

/-- `table.py TableState`. -/
inductive TableState where
  | waiting | starting | preflop | flop | turn | river | showdown | handComplete
deriving DecidableEq, Repr

/-- Seat-dict lookup. -/
def seatLookup : List (Nat × Player) → Nat → Option Player
  | [], _ => none
  | (s, p) :: rest, seat => if s = seat then some p else seatLookup rest seat

/-- In-place mutation of the player seated at `seat`. -/
def seatUpdate (players : List (Nat × Player)) (seat : Nat) (f : Player → Player) :
    List (Nat × Player) :=
  players.map (fun e => if e.1 = seat then (e.1, f e.2) else e)

/-- `del self.players[seat]` for the first seat whose occupant has the
given user id (`Table.remove_player` deletes one seat and returns). -/
def seatRemoveByUser : List (Nat × Player) → String → List (Nat × Player)
  | [], _ => []
  | (s, p) :: rest, userId =>
      if p.userId = userId then rest
      else (s, p) :: seatRemoveByUser rest userId

/-- The relevant table state (`table.py Table`); the event callback and
logging are I/O only and are not part of the state. -/
structure Table where
  tableId : String
  smallBlind : Int := 1
  bigBlind : Int := 2
  minPlayers : Nat := 2
  maxPlayers : Nat := 10
  state : TableState := .waiting
  players : List (Nat × Player) := []
  deck : Deck := ⟨standard52⟩
  pot : Pot := {}
  communityCards : List Card := []
  dealerSeat : Nat := 0
  currentBettingRound : Option BettingRound := none
  handNumber : Nat := 0

namespace Table

/-- `Table.add_player(player)`: rejects an occupied seat, an
out-of-range seat, or a full table. -/
def addPlayer (t : Table) (p : Player) : Bool × Table :=
  if (seatLookup t.players p.seat).isSome then (false, t)
  else if p.seat ≥ t.maxPlayers then (false, t)
  else if t.players.length ≥ t.maxPlayers then (false, t)
  else (true, { t with players := t.players ++ [(p.seat, p)] })

/-- `Table.remove_player(user_id)`: deletes the seat of the first
matching player and returns them, unchanged — no fold is applied. -/
def removePlayer (t : Table) (userId : String) : Table × Option Player :=
  match t.players.find? (fun e => e.2.userId = userId) with
  | none => (t, none)
  | some e => ({ t with players := seatRemoveByUser t.players userId }, some e.2)

/-- `Table._get_players_in_order()`: players in seat order starting
one seat after the dealer. -/
def getPlayersInOrder (t : Table) : List Player :=
  if t.players.isEmpty then []
  else
    let seats := List.insertionSort (· ≤ ·) (t.players.map Prod.fst)
    let di := (seats.findIdx? (fun s => decide (s ≥ t.dealerSeat))).getD 0
    let ordered := seats.drop di ++ seats.take di
    let ordered :=
      match ordered with
      | s :: rest => if s = t.dealerSeat then rest ++ [s] else s :: rest
      | [] => []
    ordered.map (fun s => (seatLookup t.players s).getD default)

/-- `Table._advance_dealer()`: dealer moves to the first seat strictly
greater, wrapping to the lowest seat. -/
def advanceDealer (t : Table) : Table :=
  let seats := List.insertionSort (· ≤ ·) (t.players.map Prod.fst)
  if seats.isEmpty then t
  else
    let i := (seats.findIdx? (fun s => decide (s > t.dealerSeat))).getD 0
    { t with dealerSeat := seats.getD i 0 }

/-- `Table.can_start_hand()`. -/
def canStartHand (t : Table) : Bool :=
  decide (((t.players.map Prod.snd).filter
    (fun p => !p.isSittingOut && decide (p.chips > 0))).length ≥ t.minPlayers)

/-- `Table._post_blinds()`: heads-up, the dealer (last in post-dealer
order) posts the small blind; otherwise the first two post-dealer seats
post the blinds. -/
def postBlinds (t : Table) : Table :=
  let active := (getPlayersInOrder t).filter
    (fun p => !p.isSittingOut && decide (p.chips > 0))
  if active.length < 2 then t
  else
    let sbP := if active.length = 2 then active.getD 1 default else active.getD 0 default
    let bbP := if active.length = 2 then active.getD 0 default else active.getD 1 default
    let (sbAmt, sbP') := sbP.betAct (min t.smallBlind sbP.chips)
    let t1 := { t with
      players := seatUpdate t.players sbP.seat (fun _ => sbP')
      pot := t.pot.addBet sbP.userId sbAmt }
    let (bbAmt, bbP') := bbP.betAct (min t.bigBlind bbP.chips)
    { t1 with
      players := seatUpdate t1.players bbP.seat (fun _ => bbP')
      pot := t1.pot.addBet bbP.userId bbAmt }

/-- The loop of `Table._deal_hole_cards()`: two cards off the deck for
each non-sitting-out player in order; a short deck raises (`none`). -/
def dealHoleCardsLoop : List Player → List (Nat × Player) → Deck →
    Option (List (Nat × Player) × Deck)
  | [], ps, d => some (ps, d)
  | p :: rest, ps, d =>
      if !p.isSittingOut && decide (p.chips ≥ 0) then
        match d.deal 2 with
        | (some cards, d') =>
            dealHoleCardsLoop rest (seatUpdate ps p.seat (fun q => q.receiveCards cards)) d'
        | (none, _) => none
      else dealHoleCardsLoop rest ps d

/-- `Table._deal_hole_cards()`. -/
def dealHoleCards (t : Table) : Option Table :=
  match dealHoleCardsLoop (getPlayersInOrder t) t.players t.deck with
  | some (ps, d) => some { t with players := ps, deck := d }
  | none => none

/-- `Table._start_betting_round()`: post-preflop wagers are zeroed
first; the round's player list is the non-folded, non-sitting-out
players in post-dealer order; preflop opens with
`current_bet = big_blind`. -/
def startBettingRound (t : Table) : Table :=
  let t :=
    if t.state ≠ TableState.preflop then
      { t with players := t.players.map (fun e => (e.1, { e.2 with currentBet := 0 })) }
    else t
  let active := (getPlayersInOrder t).filter (fun p => !p.isFolded && !p.isSittingOut)
  let br := BettingRound.init active t.smallBlind t.bigBlind (t.state = TableState.preflop)
  let br := if t.state = TableState.preflop then { br with currentBet := t.bigBlind } else br
  { t with currentBettingRound := some br }

/-- `Table.start_hand()`, with the post-shuffle deck order supplied as
`shuffled` (the source shuffles with a PRNG; everything after the
shuffle is deterministic in the card order).  `none` when the hand
cannot start or the deck runs out while dealing. -/
def startHand (t : Table) (shuffled : List Card) : Option Table :=
  if !t.canStartHand then none
  else if t.state ≠ TableState.waiting then none
  else
    let t := { t with
      handNumber := t.handNumber + 1
      state := .starting
      deck := ⟨shuffled⟩
      pot := {}
      communityCards := []
      players := t.players.map (fun e => (e.1, e.2.resetForNewHand)) }
    let t := advanceDealer t
    let t := postBlinds t
    match dealHoleCards t with
    | none => none
    | some t =>
        let t := { t with state := .preflop }
        some (startBettingRound t)

end Table

/-! ## Per-viewer snapshots (`Table.get_state_for_player`,
`Table.get_state_for_spectator`, `Player.to_dict`) -/

/-- One entry of the snapshot's `players` array.  `holeCards` is
`none` exactly when `to_dict` was called with `hide_cards=True` and the
key is omitted from the serialized dict; `hasCards` is always
present. -/
structure PlayerProjection where
  userId : String
  username : String
  seat : Nat
  chips : Int
  isFolded : Bool
  isAllIn : Bool
  currentBet : Int
  isSittingOut : Bool
  isDisconnected : Bool
  hasCards : Bool
  holeCards : Option (List Card)
  isYou : Bool
  isConnected : Bool
deriving DecidableEq, Repr

/-- `Player.to_dict(hide_cards)` (with the `is_you` / `is_connected`
keys the snapshot code adds right after). -/
def Player.toProjection (p : Player) (hideCards : Bool) (isYou isConnected : Bool) :
    PlayerProjection :=
  { userId := p.userId
    username := p.username
    seat := p.seat
    chips := p.chips
    isFolded := p.isFolded
    isAllIn := p.isAllIn
    currentBet := p.currentBet
    isSittingOut := p.isSittingOut
    isDisconnected := p.isDisconnected
    hasCards := decide (p.holeCards.length > 0)
    holeCards := if hideCards then none else some p.holeCards
    isYou := isYou
    isConnected := isConnected }

/-- The per-viewer snapshot (`game_state` payload). -/
structure GameSnapshot where
  tableId : String
  state : TableState
  handNumber : Nat
  dealerSeat : Nat
  smallBlind : Int
  bigBlind : Int
  potTotal : Int
  maxPlayers : Nat
  communityCards : List Card
  players : List PlayerProjection
  currentPlayer : Option String
  validActions : List ActionType
  callAmount : Int
  minRaise : Int
deriving DecidableEq, Repr

namespace Table

/-- Seats in ascending order (`sorted(self.players.keys())`). -/
def sortedSeats (t : Table) : List Nat :=
  List.insertionSort (· ≤ ·) (t.players.map Prod.fst)

/-- `Table.get_state_for_player(user_id)`: the requesting viewer's own
projection keeps the hole cards (`to_private_dict`); every other seat
is serialized with `hide_cards=True`. -/
def getStateForPlayer (t : Table) (userId : String) : GameSnapshot :=
  let playersData := t.sortedSeats.map (fun s =>
    let p := (seatLookup t.players s).getD default
    if p.userId = userId then p.toProjection false true (!p.isDisconnected)
    else p.toProjection true false (!p.isDisconnected))
  let turnInfo : Option String × List ActionType × Int × Int :=
    match t.currentBettingRound with
    | none => (none, [], 0, 0)
    | some br =>
        match br.getCurrentPlayer with
        | (some cur, br') =>
            if cur.userId = userId then
              (some cur.userId, br'.getValidActions cur, br'.getCallAmount cur,
                br'.getMinRaiseTarget)
            else (some cur.userId, [], 0, 0)
        | (none, _) => (none, [], 0, 0)
  { tableId := t.tableId
    state := t.state
    handNumber := t.handNumber
    dealerSeat := t.dealerSeat
    smallBlind := t.smallBlind
    bigBlind := t.bigBlind
    potTotal := t.pot.mainPot
    maxPlayers := t.maxPlayers
    communityCards := t.communityCards
    players := playersData
    currentPlayer := turnInfo.1
    validActions := turnInfo.2.1
    callAmount := turnInfo.2.2.1
    minRaise := turnInfo.2.2.2 }

/-- `Table.get_state_for_spectator()`: every seat is serialized with
`hide_cards=True` and no viewer-specific fields are filled in. -/
def getStateForSpectator (t : Table) : GameSnapshot :=
  let playersData := t.sortedSeats.map (fun s =>
    let p := (seatLookup t.players s).getD default
    p.toProjection true false (!p.isDisconnected))
  { tableId := t.tableId
    state := t.state
    handNumber := t.handNumber
    dealerSeat := t.dealerSeat
    smallBlind := t.smallBlind
    bigBlind := t.bigBlind
    potTotal := t.pot.mainPot
    maxPlayers := t.maxPlayers
    communityCards := t.communityCards
    players := playersData
    currentPlayer := none
    validActions := []
    callAmount := 0
    minRaise := 0 }

end Table

/-! ## Spec-side odd-chip order (for comparison with the code) -/

/-- Modelled from the spec: "Pot amount is split as integer division;
the remainder is distributed one chip each, in ascending order of seat
index from the first seat left of the dealer."  The occupied seats,
ascending, rotated to start at the first seat strictly after the dealer
(wrapping). -/
def specSeatOrderFromDealer (players : List (Nat × Player)) (dealerSeat : Nat) :
    List Nat :=
  let seats := List.insertionSort (· ≤ ·) (players.map Prod.fst)
  let di := (seats.findIdx? (fun s => decide (s > dealerSeat))).getD 0
  seats.drop di ++ seats.take di

/-- Modelled from the spec: split `amount` among the tied `winners`,
`floor(amount/n)` each, the remainder one chip each in the spec's
dealer-relative seat order. -/
def specChopWinnings (players : List (Nat × Player)) (dealerSeat : Nat)
    (winners : List String) (amount : Int) : String → Int :=
  let orderedWinners := (specSeatOrderFromDealer players dealerSeat).filterMap
    (fun s => (seatLookup players s).bind
      (fun p => if p.userId ∈ winners then some p.userId else none))
  distributeLoop (Int.fdiv amount winners.length) (Int.fmod amount winners.length)
    orderedWinners 0 (fun _ => 0)

/-! ## Concrete fixtures used by the theorems below -/

instance : Inhabited PlayerProjection :=
  ⟨Player.toProjection default true false false⟩

/-- A player holding two cards (as after the hole-card deal). -/
def mkHolding (uid : String) (seat : Nat) (chips : Int) : Player :=
  { userId := uid, username := uid, seat := seat, chips := chips,
    holeCards := [⟨2, .hearts⟩, ⟨3, .hearts⟩] }

/-- A player with an empty hand (as before a hand starts). -/
def mkFresh (uid : String) (seat : Nat) (chips : Int) : Player :=
  { userId := uid, username := uid, seat := seat, chips := chips }

/-- Heads-up table of the spec's scenario 1: seats 0 and 1, 100 chips
each, blinds 1/2, dealer at seat 0 about to advance to seat 1. -/
def headsUpTable : Table :=
  { tableId := "t",
    players := [(0, mkFresh "a" 0 100), (1, mkFresh "b" 1 100)] }

/-- The heads-up table after `start_hand()` (identity shuffle). -/
def headsUpHand : Table := (headsUpTable.startHand standard52).getD headsUpTable

/-- Three-player postflop betting round: 100/100/15 chip stacks,
blinds 1/2, no bet yet. -/
def triRound : BettingRound :=
  BettingRound.init [mkHolding "p1" 0 100, mkHolding "p2" 1 100, mkHolding "p3" 2 15] 1 2 false

/-- `p1` opens for 10. -/
def triRound1 : BettingRound := triRound.stepAction 0 ⟨.bet, 10⟩

/-- `p2` calls the 10. -/
def triRound2 : BettingRound := triRound1.stepAction 1 ⟨.call, 0⟩

/-- `p3` moves all-in for 15 total: a raise of 5, short of the minimum
raise of 10. -/
def triRound3 : BettingRound := triRound2.stepAction 2 ⟨.allIn, 0⟩

/-- Two-player round with 10 already bet against a 30-chip stack
(minimum raise 10). -/
def shortStackRound : BettingRound :=
  { BettingRound.init [mkHolding "p1" 0 30, mkHolding "p2" 1 100] 1 2 false with
    currentBet := 10, minRaise := 10 }

/-- Three seated showdown contenders in seat-joining order 0, 1, 2. -/
def chopPlayers : List (Nat × Player) :=
  [(0, mkHolding "a" 0 0), (1, mkHolding "b" 1 0), (2, mkHolding "c" 2 0)]

/-- All three contenders hold the same hand value (the board plays). -/
def chopHands : String → HandVal := fun _ => ⟨9, [14]⟩

/-- The payouts the showdown code computes for a 301-chip three-way
chop with the dealer at seat 1. -/
def chopCodeWinnings : String → Int :=
  showdownWinnings chopPlayers chopHands [⟨301, ["a", "b", "c"]⟩]

/-- The payouts the spec's seat-order rule prescribes for the same
chop. -/
def chopSpecWinnings : String → Int :=
  specChopWinnings chopPlayers 1 ["a", "b", "c"] 301

/-- A pot built through `add_bet`: A 30, B 60, C 100. -/
def tripleBetPot : Pot :=
  ((({} : Pot).addBet "A" 30).addBet "B" 60).addBet "C" 100

/-! # Theorems -/

/-- C10: for every deck state and count, `Deck.deal(count)` raises
exactly when `count` exceeds the remaining cards and then leaves the
deck unchanged; otherwise it returns exactly `count` cards off the
front and the remaining count drops by exactly `count`. -/
theorem deal_raises_iff_short_else_pops_front (d : Deck) (count : Nat) :
    ((d.deal count).1 = none ↔ count > d.remaining)
    ∧ ((d.deal count).1 = none → (d.deal count).2 = d)
    ∧ (∀ cards, (d.deal count).1 = some cards →
        cards = d.cards.take count ∧ cards.length = count ∧
        (d.deal count).2.remaining = d.remaining - count) := by
  by_cases h : count > d.cards.length
  · simp [Deck.deal, Deck.remaining, h]
  · simp only [Deck.deal, Deck.remaining, h, if_neg, if_false, reduceIte]
    refine ⟨by simp [h], by simp, ?_⟩
    intro cards hc
    obtain rfl : cards = d.cards.take count := by simpa using hc.symm
    refine ⟨rfl, ?_, ?_⟩
    · simp [List.length_take]; omega
    · simp [List.length_drop]

/-- Witness for C10 at concrete inputs: dealing 53 from a full deck
raises and keeps the deck; dealing 2 pops the front two cards leaving
50. -/
theorem deal_raises_iff_short_else_pops_front_witness :
    ((Deck.deal ⟨standard52⟩ 53).1 = none ∧ (Deck.deal ⟨standard52⟩ 53).2 = ⟨standard52⟩)
    ∧ (Deck.deal ⟨standard52⟩ 2).2.remaining = 50 := by
  have h53 := deal_raises_iff_short_else_pops_front ⟨standard52⟩ 53
  have h2 := deal_raises_iff_short_else_pops_front ⟨standard52⟩ 2
  have hn : (Deck.deal ⟨standard52⟩ 53).1 = none := h53.1.mpr (by decide)
  refine ⟨⟨hn, h53.2.1 hn⟩, ?_⟩
  have := (h2.2.2 (standard52.take 2) rfl).2.2
  exact this.trans (by decide)

/-- First-match lookup in a tombstone map after deleting a user finds
nothing. -/
theorem tombLookup_tombDelete_self (m : TombMap) (u : String) :
    tombLookup (tombDelete m u) u = none := by
  induction m with
  | nil => rfl
  | cons e rest ih =>
      obtain ⟨v, x⟩ := e
      by_cases h : v = u <;> simp [tombDelete, tombLookup, h, ih]

/-- C8 counterexample: with a tombstone whose grace deadline is exactly
the current time (`now = 100 = grace_expires`), `mark_reconnected`
returns `True` although the current time is not strictly before the
deadline, so the claimed "iff strictly before" fails. -/
theorem markReconnected_boundary_counterexample :
    (markReconnected [("u", 100)] "u" 100).1 = true ∧ ¬ ((100 : Int) < 100) := by
  decide

/-- C8 (amended): `mark_reconnected` returns `True` iff a tombstone
exists and the current time is at most (not strictly before) the grace
deadline; on `True` the tombstone is deleted, on `False` the map is
untouched. -/
theorem markReconnected_spec (m : TombMap) (u : String) (now : Int) :
    ((markReconnected m u now).1 = true ↔ ∃ e, tombLookup m u = some e ∧ now ≤ e)
    ∧ ((markReconnected m u now).1 = true →
        tombLookup (markReconnected m u now).2 u = none)
    ∧ ((markReconnected m u now).1 = false → (markReconnected m u now).2 = m) := by
  unfold markReconnected
  cases h : tombLookup m u with
  | none => simp [h]
  | some e =>
      by_cases hlt : now > e
      · simp only [h, if_pos hlt]
        refine ⟨?_, by simp, by simp⟩
        simp only [Option.some.injEq]
        constructor
        · intro hfalse; exact absurd hfalse (by simp)
        · rintro ⟨e', rfl, hle⟩; omega
      · simp only [h, if_neg hlt]
        refine ⟨?_, ?_, by simp⟩
        · constructor
          · intro _; exact ⟨e, rfl, by omega⟩
          · intro _; trivial
        · intro _; exact tombLookup_tombDelete_self m u

/-- Witness for the amended C8: a live tombstone (deadline 100, now 50)
reconnects and is consumed; a missing tombstone leaves the map as it
was. -/
theorem markReconnected_spec_witness :
    (markReconnected [("u", 100)] "u" 50).1 = true
    ∧ tombLookup (markReconnected [("u", 100)] "u" 50).2 "u" = none
    ∧ (markReconnected [("u", 100)] "v" 50).2 = [("u", 100)] := by
  have h := markReconnected_spec [("u", 100)] "u" 50
  have ht : (markReconnected [("u", 100)] "u" 50).1 = true :=
    h.1.mpr ⟨100, by decide, by decide⟩
  exact ⟨ht, h.2.1 ht, (markReconnected_spec [("u", 100)] "v" 50).2.2 (by decide)⟩

/-- C7 counterexample: a player who goes all-in for their 10-chip stack
and then wins a 20-chip pot has `is_all_in = True` with 20 chips —
`win_pot` neither clears the flag nor keeps the stack at 0, violating
`all_in ⇒ stack == 0` right after a pot award. -/
theorem winPot_breaks_all_in_invariant :
    (((mkFresh "x" 0 10).betAct 10).2).isAllIn = true
    ∧ ((((mkFresh "x" 0 10).betAct 10).2).winPot 20).isAllIn = true
    ∧ ((((mkFresh "x" 0 10).betAct 10).2).winPot 20).chips = 20
    ∧ ¬ allInInvariant ((((mkFresh "x" 0 10).betAct 10).2).winPot 20) := by
  refine ⟨by decide, by decide, by decide, fun hinv => ?_⟩
  exact absurd (hinv (by decide)) (by decide)

/-- Amended C7: `all_in ⇒ stack == 0` is preserved by `bet` (for
nonnegative amounts), `fold` and `receive_cards`, and is established by
the new-hand reset; but `win_pot` leaves `is_all_in` unchanged while
adding to the stack, so an all-in pot winner violates the invariant
until the next reset. -/
theorem all_in_invariant_per_operation (p : Player) (amount : Int) (cards : List Card) :
    (allInInvariant p → 0 ≤ amount → allInInvariant (p.betAct amount).2)
    ∧ (allInInvariant p → allInInvariant p.fold)
    ∧ (allInInvariant p → allInInvariant (p.receiveCards cards))
    ∧ allInInvariant p.resetForNewHand
    ∧ (p.winPot amount).isAllIn = p.isAllIn
    ∧ (p.winPot amount).chips = p.chips + amount := by
  refine ⟨?_, ?_, ?_, ?_, rfl, rfl⟩
  · intro hp hamt
    intro hall
    simp only [Player.betAct] at hall ⊢
    by_cases hz : p.chips - min amount p.chips = 0
    · exact hz
    · simp only [if_neg hz] at hall
      have h0 : p.chips = 0 := hp hall
      rw [h0] at hz
      have : min amount (0 : Int) = 0 := min_eq_right hamt
      omega
  · intro hp hall; exact hp hall
  · intro hp hall; exact hp hall
  · intro hall; simp [Player.resetForNewHand] at hall

/-- Witness for the amended C7: the preserved and established cases at
a concrete player. -/
theorem all_in_invariant_per_operation_witness :
    allInInvariant ((mkFresh "x" 0 5).betAct 3).2
    ∧ allInInvariant (mkFresh "x" 0 5).resetForNewHand := by
  refine ⟨(all_in_invariant_per_operation (mkFresh "x" 0 5) 3 []).1 ?_ (by decide),
    (all_in_invariant_per_operation (mkFresh "x" 0 5) 3 []).2.2.2.1⟩
  intro h; exact absurd h (by decide)

/-- C5: in the snapshot rendered for any viewer, only the viewer's own
player projection carries a `hole_cards` field; every other projection
omits it, and a spectator snapshot omits it for every seat. -/
theorem snapshot_hole_cards_only_for_viewer (t : Table) (viewer : String) :
    (∀ pr ∈ (t.getStateForPlayer viewer).players,
      pr.holeCards.isSome = true → pr.userId = viewer)
    ∧ (∀ pr ∈ (t.getStateForSpectator).players, pr.holeCards = none) := by
  constructor
  · intro pr hpr hsome
    simp only [Table.getStateForPlayer, List.mem_map] at hpr
    obtain ⟨s, _, rfl⟩ := hpr
    set p := (seatLookup t.players s).getD default with hp
    by_cases h : p.userId = viewer
    · simp only [if_pos h, Player.toProjection]
      exact h
    · simp only [if_neg h, Player.toProjection, Option.isSome_none] at hsome
      exact absurd hsome (by simp)
  · intro pr hpr
    simp only [Table.getStateForSpectator, List.mem_map] at hpr
    obtain ⟨s, _, rfl⟩ := hpr
    simp [Player.toProjection]

/-- Witness for C5 at the concrete heads-up table: viewer "a" sees
cards only on their own seat, the spectator sees none. -/
theorem snapshot_hole_cards_only_for_viewer_witness :
    ((headsUpHand.getStateForPlayer "a").players.getD 0 default).userId = "a"
    ∧ ((headsUpHand.getStateForSpectator).players.getD 0 default).holeCards = none := by
  refine ⟨(snapshot_hole_cards_only_for_viewer headsUpHand "a").1 _ ?_ ?_,
    (snapshot_hole_cards_only_for_viewer headsUpHand "a").2 _ ?_⟩
  · decide
  · decide
  · decide

/-- C2 (code evaluation at the failing input): heads-up seats 0 and 1,
dealer advanced to seat 1.  Seat 1 duly posts the small blind 1 and
seat 0 the big blind 2 — but the first preflop actor the code produces
is seat 0's player "a" (the big blind), not the dealer/small blind at
seat 1 that the spec and the repository's own tests require. -/
theorem heads_up_first_preflop_actor_is_big_blind :
    headsUpHand.dealerSeat = 1
    ∧ headsUpHand.state = TableState.preflop
    ∧ ((seatLookup headsUpHand.players 1).map Player.currentBet) = some 1
    ∧ ((seatLookup headsUpHand.players 0).map Player.currentBet) = some 2
    ∧ ((seatLookup headsUpHand.players 0).map Player.userId) = some "a"
    ∧ (headsUpHand.currentBettingRound.map
        (fun br => br.getCurrentPlayer.1.map Player.userId)) = some (some "a") := by
  refine ⟨rfl, rfl, rfl, rfl, rfl, rfl⟩

/-- C9 (code evaluation at the failing input): with a hand in progress
(preflop) and seat 0's player active and unfolded,
`Table.remove_player` vacates the seat and hands back the player with
`is_folded` still `False` — no fold is applied on the way out. -/
theorem remove_player_mid_hand_does_not_fold :
    headsUpHand.state = TableState.preflop
    ∧ ((seatLookup headsUpHand.players 0).map Player.isActive) = some true
    ∧ ((seatLookup headsUpHand.players 0).map Player.isFolded) = some false
    ∧ ((headsUpHand.removePlayer "a").2.map Player.isFolded) = some false
    ∧ seatLookup (headsUpHand.removePlayer "a").1.players 0 = none := by
  refine ⟨rfl, rfl, rfl, rfl, rfl⟩

/-- `get_current_player` only moves the action pointer and the
completion flag; every other round field is untouched. -/
theorem getCurrentPlayer_fields (br : BettingRound) :
    br.getCurrentPlayer.2.players = br.players
    ∧ br.getCurrentPlayer.2.currentBet = br.currentBet
    ∧ br.getCurrentPlayer.2.minRaise = br.minRaise
    ∧ br.getCurrentPlayer.2.lastRaiser = br.lastRaiser
    ∧ br.getCurrentPlayer.2.actionsTaken = br.actionsTaken
    ∧ br.getCurrentPlayer.2.complete = (br.complete || br.getCurrentPlayer.2.complete) := by
  unfold BettingRound.getCurrentPlayer
  split_ifs with h1 h2
  · simp [h1]
  · simp
  · rcases hfa : BettingRound.findActorLoop br.players.length br.players br.actionOn with
      ⟨p?, a⟩
    cases p? <;> simp

/-- `_check_round_complete` only moves the action pointer and the
completion flag; every other round field is untouched. -/
theorem checkRoundComplete_fields (st : BettingRound) :
    (BettingRound.checkRoundComplete st).players = st.players
    ∧ (BettingRound.checkRoundComplete st).currentBet = st.currentBet
    ∧ (BettingRound.checkRoundComplete st).minRaise = st.minRaise
    ∧ (BettingRound.checkRoundComplete st).lastRaiser = st.lastRaiser
    ∧ (BettingRound.checkRoundComplete st).actionsTaken = st.actionsTaken := by
  have hst := getCurrentPlayer_fields st
  rcases hcur : st.getCurrentPlayer with ⟨cp?, st'⟩
  rw [hcur] at hst
  dsimp only at hst
  cases cp? <;>
    · refine ⟨?_, ?_, ?_, ?_, ?_⟩ <;>
      · unfold BettingRound.checkRoundComplete
        dsimp only
        rw [hcur]
        dsimp only
        repeat' split
        all_goals first
          | rfl
          | exact hst.1
          | exact hst.2.1
          | exact hst.2.2.1
          | exact hst.2.2.2.1
          | exact hst.2.2.2.2.1

/-- Element `i` after writing element `i`. -/
theorem getD_set_self (l : List Player) (i : Nat) (a d : Player) (h : i < l.length) :
    (l.set i a).getD i d = a := by
  simp [List.getD, List.getElem?_set_self, h]

/-- The RAISE path of `process_action`, spelled out: validation first
(no state is built on either error), then the clamped bet. -/
theorem processAction_raise_unfold (br : BettingRound) (i : Nat) (amt : Int) :
    br.processAction i ⟨.raiseTo, amt⟩ =
      (if ActionType.raiseTo ∉ br.getValidActions (br.players.getD i default) then
        Except.error "invalid action"
      else if amt < br.getMinRaiseTarget then Except.error "raise below minimum"
      else Except.ok (BettingRound.checkRoundComplete
        { br with
          players := br.players.set i
            ((br.players.getD i default).betAct
              (amt - (br.players.getD i default).currentBet)).2
          currentBet := ((br.players.getD i default).betAct
            (amt - (br.players.getD i default).currentBet)).2.currentBet
          minRaise := max br.minRaise
            (((br.players.getD i default).betAct
              (amt - (br.players.getD i default).currentBet)).2.currentBet - br.currentBet)
          lastRaiser := some (br.players.getD i default).userId
          actionsTaken := fun u =>
            if u = (br.players.getD i default).userId then br.actionsTaken u + 1
            else br.actionsTaken u
          actionOn := (br.actionOn + 1) % br.players.length })) := rfl

/-- RAISE appears among the valid actions exactly when a bet stands and
the stack can cover the minimum raise target. -/
theorem raise_valid_iff (br : BettingRound) (p : Player) :
    ActionType.raiseTo ∈ br.getValidActions p ↔
      (¬ br.currentBet = 0 ∧ p.chips + p.currentBet ≥ br.currentBet + br.minRaise) := by
  unfold BettingRound.getValidActions
  dsimp only
  simp only [List.mem_append, apply_ite (fun l => ActionType.raiseTo ∈ l),
    List.mem_cons, List.mem_singleton, List.not_mem_nil]
  simp
  tauto

/-- C6 (amended): RAISE is validated only by `current_bet > 0` (else
BET is offered instead) plus a declared target of at least
`current_bet + min_raise`; the `delta ≤ stack` condition is never
checked.  A below-minimum target raises a typed error (without any
state change — the source raises before mutating); any accepted RAISE
clamps the chips moved at the stack, setting the wager — and the
round's `current_bet` — to `min(target, wager + stack)`, which goes
all-in rather than erroring when the target exceeds the stack. -/
theorem raise_validation_and_clamping (br : BettingRound) (i : Nat) (amt : Int)
    (hi : i < br.players.length) :
    (ActionType.raiseTo ∈ br.getValidActions (br.players.getD i default) ↔
      (¬ br.currentBet = 0 ∧
        (br.players.getD i default).chips + (br.players.getD i default).currentBet ≥
          br.currentBet + br.minRaise))
    ∧ ((br.processAction i ⟨.raiseTo, amt⟩).isOk = true ↔
        (ActionType.raiseTo ∈ br.getValidActions (br.players.getD i default)
          ∧ amt ≥ br.currentBet + br.minRaise))
    ∧ (∀ br', br.processAction i ⟨.raiseTo, amt⟩ = .ok br' →
        br'.currentBet =
          min amt ((br.players.getD i default).currentBet + (br.players.getD i default).chips)
        ∧ (br'.players.getD i default).currentBet = br'.currentBet
        ∧ (br'.players.getD i default).chips =
            (br.players.getD i default).chips -
              min (amt - (br.players.getD i default).currentBet)
                (br.players.getD i default).chips) := by
  refine ⟨raise_valid_iff br _, ?_, ?_⟩
  · rw [processAction_raise_unfold]
    split_ifs with hv hamt
    · unfold BettingRound.getMinRaiseTarget at hamt
      exact iff_of_false (by simp [Except.isOk, Except.toBool])
        (fun h => absurd h.2 (by omega))
    · unfold BettingRound.getMinRaiseTarget at hamt
      exact iff_of_true (by simp [Except.isOk, Except.toBool]) ⟨hv, by omega⟩
    · exact iff_of_false (by simp [Except.isOk, Except.toBool]) (fun h => absurd h.1 hv)
  · intro br' hok
    rw [processAction_raise_unfold] at hok
    split_ifs at hok with hv hamt
    · have hbr' := Except.ok.inj hok
      subst hbr'
      have hfields := checkRoundComplete_fields
        { br with
          players := br.players.set i
            ((br.players.getD i default).betAct
              (amt - (br.players.getD i default).currentBet)).2
          currentBet := ((br.players.getD i default).betAct
            (amt - (br.players.getD i default).currentBet)).2.currentBet
          minRaise := max br.minRaise
            (((br.players.getD i default).betAct
              (amt - (br.players.getD i default).currentBet)).2.currentBet - br.currentBet)
          lastRaiser := some (br.players.getD i default).userId
          actionsTaken := fun u =>
            if u = (br.players.getD i default).userId then br.actionsTaken u + 1
            else br.actionsTaken u
          actionOn := (br.actionOn + 1) % br.players.length }
      refine ⟨?_, ?_, ?_⟩
      · rw [hfields.2.1]
        unfold Player.betAct
        dsimp only
        simp only [min_def]
        split_ifs <;> omega
      · rw [hfields.1, getD_set_self _ _ _ _ hi, hfields.2.1]
      · rw [hfields.1, getD_set_self _ _ _ _ hi]
        unfold Player.betAct
        dsimp only

/-- C6 counterexample: a standing bet of 10 with minimum raise 10;
the player at seat 0 holds 30 chips and declares a raise to 40 — a
delta of 40 beyond a 30-chip stack.  The action is accepted (no typed
error), the player's whole stack moves (all-in, stack 0) and
`current_bet` becomes 30: state mutates instead of erroring. -/
theorem raise_overspend_accepted_counterexample :
    ((40 : Int) - (shortStackRound.players.getD 0 default).currentBet >
      (shortStackRound.players.getD 0 default).chips)
    ∧ (shortStackRound.processAction 0 ⟨.raiseTo, 40⟩).isOk = true
    ∧ (shortStackRound.stepAction 0 ⟨.raiseTo, 40⟩).currentBet = 30
    ∧ ((shortStackRound.stepAction 0 ⟨.raiseTo, 40⟩).players.getD 0 default).chips = 0
    ∧ ((shortStackRound.stepAction 0 ⟨.raiseTo, 40⟩).players.getD 0 default).isAllIn = true := by
  exact ⟨by decide, rfl, rfl, rfl, rfl⟩

/-- Witness for the amended C6 at the concrete short-stack round:
raising to 40 with a 30-chip stack is accepted and clamps to 30. -/
theorem raise_validation_and_clamping_witness :
    (shortStackRound.processAction 0 ⟨.raiseTo, 40⟩).isOk = true
    ∧ (shortStackRound.stepAction 0 ⟨.raiseTo, 40⟩).currentBet = 30 := by
  have h := raise_validation_and_clamping shortStackRound 0 40 (by decide)
  have hmem : ActionType.raiseTo ∈
      shortStackRound.getValidActions (shortStackRound.players.getD 0 default) :=
    h.1.mpr ⟨by decide, by decide⟩
  have hok : (shortStackRound.processAction 0 ⟨.raiseTo, 40⟩).isOk = true :=
    h.2.1.mpr ⟨hmem, by decide⟩
  have hcb := (h.2.2 (shortStackRound.stepAction 0 ⟨.raiseTo, 40⟩) rfl).1
  exact ⟨hok, hcb.trans (by decide)⟩

/-- A player who can act is neither folded nor all-in. -/
theorem canAct_not_folded_not_all_in (p : Player) (h : p.canAct = true) :
    p.isFolded = false ∧ p.isAllIn = false := by
  unfold Player.canAct Player.isActive at h
  simp only [Bool.and_eq_true, Bool.not_eq_true'] at h
  exact ⟨h.1.1.1, h.2⟩

/-- The scan of `get_current_player` succeeds whenever some index it
will visit within its fuel can act. -/
theorem findActorLoop_finds (ps : List Player) (fuel : Nat) :
    ∀ a, (∃ k, k < fuel ∧ (ps.getD ((a + k) % ps.length) default).canAct = true) →
      ∃ p a', BettingRound.findActorLoop fuel ps a = (some p, a') := by
  induction fuel with
  | zero => intro a ⟨k, hk, _⟩; omega
  | succ n ih =>
      intro a ⟨k, hk, hcan⟩
      rw [show BettingRound.findActorLoop (n + 1) ps a =
        (if (ps.getD (a % ps.length) default).canAct = true
          then (some (ps.getD (a % ps.length) default), a)
          else BettingRound.findActorLoop n ps (a + 1)) from rfl]
      by_cases hc : (ps.getD (a % ps.length) default).canAct = true
      · rw [if_pos hc]
        exact ⟨_, a, rfl⟩
      · rw [if_neg hc]
        have hk0 : k ≠ 0 := by
          intro h0
          rw [h0, Nat.add_zero] at hcan
          exact hc hcan
        obtain ⟨k', rfl⟩ : ∃ k', k = k' + 1 := ⟨k - 1, by omega⟩
        have heq : (a + 1 + k') % ps.length = (a + (k' + 1)) % ps.length := by
          congr 1; omega
        exact ih (a + 1) ⟨k', by omega, by rw [heq]; exact hcan⟩

/-- Starting from any offset, some step count below the list length
lands on any given index. -/
theorem exists_step_to_index (len a j : Nat) (hj : j < len) :
    ∃ k, k < len ∧ (a + k) % len = j := by
  have hlen : 0 < len := by omega
  have hr : a % len < len := Nat.mod_lt _ hlen
  refine ⟨(j + len - a % len) % len, Nat.mod_lt _ hlen, ?_⟩
  conv_lhs => rw [Nat.add_mod]
  rw [Nat.mod_mod_of_dvd _ dvd_rfl]
  have h1 : a % len + (j + len - a % len) % len = a % len + (j + len - a % len) % len := rfl
  calc (a % len + (j + len - a % len) % len) % len
      = ((a % len) % len + (j + len - a % len) % len) % len := by
        rw [Nat.mod_mod_of_dvd _ dvd_rfl]
    _ = (a % len + (j + len - a % len)) % len := by rw [← Nat.add_mod]
    _ = (j + len) % len := by
        congr 1
        omega
    _ = j := by
        rw [Nat.add_mod_right]
        exact Nat.mod_eq_of_lt hj

/-- When the round is not complete and some seated player can act,
`get_current_player` returns a player and does not mark the round
complete. -/
theorem getCurrentPlayer_keeps_incomplete (br : BettingRound)
    (hc : br.complete = false) (q : Player) (hq : q ∈ br.players)
    (hcan : q.canAct = true) :
    br.getCurrentPlayer.2.complete = false ∧ br.getCurrentPlayer.1.isSome = true := by
  obtain ⟨j, hj, hje⟩ := List.mem_iff_getElem.mp hq
  have hfind : ∃ p a', BettingRound.findActorLoop br.players.length br.players br.actionOn
      = (some p, a') := by
    obtain ⟨k, hk, hkj⟩ := exists_step_to_index br.players.length br.actionOn j hj
    refine findActorLoop_finds br.players br.players.length br.actionOn ⟨k, hk, ?_⟩
    rw [hkj, List.getD_eq_getElem?_getD, List.getElem?_eq_getElem hj, Option.getD_some,
      hje]
    exact hcan
  obtain ⟨p, a', hfa⟩ := hfind
  have hall : (br.players.all fun p => !p.canAct) = false := by
    rw [List.all_eq_false]
    exact ⟨q, hq, by simp [hcan]⟩
  unfold BettingRound.getCurrentPlayer
  rw [if_neg (by simp [hc]), if_neg (by simp [hall]), hfa]
  exact ⟨hc, rfl⟩

/-- `_check_round_complete` cannot complete the round while at least
two players are unfolded and some player can still act on a wager that
does not match `current_bet`. -/
theorem checkRoundComplete_keeps_incomplete (st : BettingRound)
    (hc : st.complete = false)
    (q : Player) (hq : q ∈ st.players) (hcan : q.canAct = true)
    (hne : ¬ q.currentBet = st.currentBet)
    (h2 : 2 ≤ (st.players.filter (fun r => !r.isFolded)).length) :
    (BettingRound.checkRoundComplete st).complete = false := by
  obtain ⟨hqf, hqa⟩ := canAct_not_folded_not_all_in q hcan
  have hactive : ¬ (st.players.filter (fun p => p.canAct)).length = 0 := by
    have hmem : q ∈ st.players.filter (fun p => p.canAct) :=
      List.mem_filter.mpr ⟨hq, hcan⟩
    intro h0
    rw [List.length_eq_zero] at h0
    rw [h0] at hmem
    exact absurd hmem (List.not_mem_nil q)
  have hmatched : ((st.players.filter (fun r => !r.isFolded)).all
      fun p => decide (p.currentBet = st.currentBet) || p.isAllIn) = false := by
    rw [List.all_eq_false]
    refine ⟨q, List.mem_filter.mpr ⟨hq, by simp [hqf]⟩, ?_⟩
    simp [hne, hqa]
  unfold BettingRound.checkRoundComplete
  dsimp only
  rw [if_neg hactive, if_neg (by omega)]
  cases htr : BettingRound.truthyRaiser st.lastRaiser with
  | none =>
      rw [hmatched]
      simp [hc]
  | some raiser =>
      dsimp only
      split_ifs with hra hdone
      · rcases hfind : st.getCurrentPlayer with ⟨cp?, st'⟩
        have hgc := getCurrentPlayer_keeps_incomplete st hc q hq hcan
        rw [hfind] at hgc
        dsimp only at hgc
        cases cp? with
        | none => exact absurd hgc.2 (by simp)
        | some cp =>
            dsimp only
            rw [hmatched]
            simp [hgc.1]
      · rw [Bool.and_eq_true] at hdone
        rw [hmatched] at hdone
        exact absurd hdone.1 (by simp)
      · exact hc

/-- The ALL_IN path of `process_action`, spelled out. -/
theorem processAction_allin_unfold (br : BettingRound) (i : Nat) (amt : Int) :
    br.processAction i ⟨.allIn, amt⟩ =
      (if ActionType.allIn ∉ br.getValidActions (br.players.getD i default) then
        Except.error "invalid action"
      else if ((br.players.getD i default).betAct
          (br.players.getD i default).chips).2.currentBet > br.currentBet then
        Except.ok (BettingRound.checkRoundComplete
          { br with
            players := br.players.set i
              ((br.players.getD i default).betAct (br.players.getD i default).chips).2
            currentBet := ((br.players.getD i default).betAct
              (br.players.getD i default).chips).2.currentBet
            minRaise := max br.minRaise
              (((br.players.getD i default).betAct
                (br.players.getD i default).chips).2.currentBet - br.currentBet)
            lastRaiser := some (br.players.getD i default).userId
            actionsTaken := fun u =>
              if u = (br.players.getD i default).userId then br.actionsTaken u + 1
              else br.actionsTaken u
            actionOn := (br.actionOn + 1) % br.players.length })
      else
        Except.ok (BettingRound.checkRoundComplete
          { br with
            players := br.players.set i
              ((br.players.getD i default).betAct (br.players.getD i default).chips).2
            currentBet := br.currentBet
            minRaise := br.minRaise
            lastRaiser := br.lastRaiser
            actionsTaken := fun u =>
              if u = (br.players.getD i default).userId then br.actionsTaken u + 1
              else br.actionsTaken u
            actionOn := (br.actionOn + 1) % br.players.length })) := rfl

/-- C3 (amended): an accepted ALL_IN whose resulting wager exceeds the
prior `current_bet` — by any margin, full raise or not — updates
`current_bet` to that wager; and afterwards the round is NOT complete
while at least two players are unfolded and any player who can still
act has a wager different from the new `current_bet`.  In particular a
previously-acted player whose wager matched the prior `current_bet` is
required to act again: the incomplete all-in does reopen the action. -/
theorem all_in_updates_bet_and_reopens (br : BettingRound) (i : Nat) (amt : Int)
    (hc : br.complete = false) (br' : BettingRound)
    (hok : br.processAction i ⟨.allIn, amt⟩ = .ok br') :
    ((br.players.getD i default).currentBet + (br.players.getD i default).chips >
        br.currentBet →
      br'.currentBet =
        (br.players.getD i default).currentBet + (br.players.getD i default).chips)
    ∧ (∀ q ∈ br'.players, q.canAct = true → ¬ q.currentBet = br'.currentBet →
        2 ≤ (br'.players.filter (fun r => !r.isFolded)).length →
        br'.complete = false) := by
  have hbetchips : ((br.players.getD i default).betAct
      (br.players.getD i default).chips).2.currentBet =
      (br.players.getD i default).currentBet + (br.players.getD i default).chips := by
    unfold Player.betAct
    dsimp only
    rw [min_self]
  rw [processAction_allin_unfold] at hok
  split_ifs at hok with hv hgt
  · have hbr' := Except.ok.inj hok
    subst hbr'
    set st := { br with
      players := br.players.set i
        ((br.players.getD i default).betAct (br.players.getD i default).chips).2
      currentBet := ((br.players.getD i default).betAct
        (br.players.getD i default).chips).2.currentBet
      minRaise := max br.minRaise
        (((br.players.getD i default).betAct
          (br.players.getD i default).chips).2.currentBet - br.currentBet)
      lastRaiser := some (br.players.getD i default).userId
      actionsTaken := fun u =>
        if u = (br.players.getD i default).userId then br.actionsTaken u + 1
        else br.actionsTaken u
      actionOn := (br.actionOn + 1) % br.players.length } with hst
    have hfields := checkRoundComplete_fields st
    constructor
    · intro _
      rw [hfields.2.1, hst]
      exact hbetchips
    · intro q hq hcan hne h2
      rw [hfields.1] at hq h2
      rw [hfields.2.1] at hne
      exact checkRoundComplete_keeps_incomplete st hc q hq hcan hne h2
  · have hbr' := Except.ok.inj hok
    subst hbr'
    set st := { br with
      players := br.players.set i
        ((br.players.getD i default).betAct (br.players.getD i default).chips).2
      currentBet := br.currentBet
      minRaise := br.minRaise
      lastRaiser := br.lastRaiser
      actionsTaken := fun u =>
        if u = (br.players.getD i default).userId then br.actionsTaken u + 1
        else br.actionsTaken u
      actionOn := (br.actionOn + 1) % br.players.length } with hst
    have hfields := checkRoundComplete_fields st
    constructor
    · intro hgt'
      rw [hbetchips] at hgt
      exact absurd hgt' hgt
    · intro q hq hcan hne h2
      rw [hfields.1] at hq h2
      rw [hfields.2.1] at hne
      exact checkRoundComplete_keeps_incomplete st hc q hq hcan hne h2

/-- C3 counterexample: postflop, `p1` bets 10, `p2` calls 10, `p3`
moves all-in for 15 (a raise of 5, below the minimum raise of 10).
`current_bet` becomes 15, yet the round is not complete and the next
player to act is `p1` — who had already acted once and whose wager 10
matched the prior `current_bet` of 10.  The incomplete all-in does
grant (indeed require) previously-matched players another turn. -/
theorem incomplete_all_in_reopens_counterexample :
    triRound2.currentBet = 10
    ∧ (triRound2.players.getD 0 default).currentBet = 10
    ∧ triRound2.actionsTaken "p1" = 1
    ∧ triRound3.currentBet = 15
    ∧ triRound3.minRaise = 10
    ∧ triRound3.complete = false
    ∧ (triRound3.getCurrentPlayer.1.map Player.userId) = some "p1" := by
  exact ⟨rfl, rfl, rfl, rfl, rfl, rfl, rfl⟩

/-- Witness for the amended C3 at the concrete three-player trace:
`p3`'s short all-in lifts `current_bet` to their 15-chip wager and the
round stays incomplete. -/
theorem all_in_updates_bet_and_reopens_witness :
    triRound3.currentBet =
      (triRound2.players.getD 2 default).currentBet +
        (triRound2.players.getD 2 default).chips
    ∧ triRound3.complete = false := by
  have h := all_in_updates_bet_and_reopens triRound2 2 0 (by decide) triRound3 rfl
  refine ⟨h.1 (by decide), ?_⟩
  exact h.2 (triRound3.players.getD 0 default) (by decide) (by decide) (by decide)
    (by decide)

/-- C4 counterexample: a three-way chop of a 301-chip pot, dealer at
seat 1, players seated (and joined) in seat order 0/1/2 as users
"a"/"b"/"c", all hands tied.  The code awards the odd chip to "a" —
the first hand in evaluation (player-map insertion) order — for
{101, 100, 100}; the spec's seat order from the first seat left of the
dealer starts at seat 2, so it awards the odd chip to "c"; and the
claimed {151, 150, 150} award (which sums to 451) occurs for nobody. -/
theorem chop_order_counterexample :
    chopCodeWinnings "a" = 101
    ∧ chopCodeWinnings "b" = 100
    ∧ chopCodeWinnings "c" = 100
    ∧ chopSpecWinnings "c" = 101
    ∧ ¬ chopCodeWinnings "c" = chopSpecWinnings "c"
    ∧ ¬ chopCodeWinnings "a" = 151 := by
  exact ⟨rfl, rfl, rfl, rfl, by decide, by decide⟩

/-- `calculate_winnings`'s inner loop never touches a user outside the
winner list. -/
theorem distributeLoop_not_mem (share rem : Int) (ws : List String) (k : Nat)
    (w : String → Int) (u : String) (hu : u ∉ ws) :
    distributeLoop share rem ws k w u = w u := by
  induction ws generalizing k w with
  | nil => rfl
  | cons x xs ih =>
      have hx : ¬ u = x := fun h => hu (h ▸ List.mem_cons_self x xs)
      have hxs : u ∉ xs := fun h => hu (List.mem_cons_of_mem x h)
      unfold distributeLoop
      rw [ih (k + 1) _ hxs]
      unfold addWinnings
      rw [if_neg hx]

/-- The value `calculate_winnings`'s inner loop assigns to the `i`-th
winner: the share plus one odd chip when the winner's position is below
the remainder. -/
theorem distributeLoop_getD (share rem : Int) (ws : List String) (hnd : ws.Nodup) :
    ∀ (i k : Nat) (w : String → Int), i < ws.length →
      distributeLoop share rem ws k w (ws.getD i "") =
        w (ws.getD i "") + share + (if ((k + i : Nat) : Int) < rem then 1 else 0) := by
  induction ws with
  | nil => intro i k w hi; simp at hi
  | cons x xs ih =>
      intro i k w hi
      obtain ⟨hx, hnd'⟩ := List.nodup_cons.mp hnd
      cases i with
      | zero =>
          have hgd : (x :: xs).getD 0 "" = x := rfl
          rw [hgd]
          unfold distributeLoop
          rw [distributeLoop_not_mem share rem xs (k + 1) _ x hx]
          unfold addWinnings
          rw [if_pos rfl, Nat.add_zero]
          ring
      | succ j =>
          have hj : j < xs.length := by simpa using hi
          have hgd : (x :: xs).getD (j + 1) "" = xs.getD j "" := rfl
          rw [hgd]
          unfold distributeLoop
          rw [ih hnd' j (k + 1) _ hj]
          have hmem : xs.getD j "" ∈ xs := by
            rw [List.getD_eq_getElem?_getD, List.getElem?_eq_getElem hj, Option.getD_some]
            exact List.getElem_mem hj
          have hne : ¬ xs.getD j "" = x := fun h => hx (h ▸ hmem)
          unfold addWinnings
          rw [if_neg hne]
          have hcast : ((k + 1 + j : Nat) : Int) = ((k + (j + 1) : Nat) : Int) := by
            congr 1
            omega
          rw [hcast]

/-- C4 (amended): a pot split among `n` tied winners pays each winner
`floor(amount/n)`, and the `amount mod n` odd chips go one each to the
first `amount mod n` entries of the winners list in its own order —
which, in the showdown pipeline, is hand-evaluation (player-map
insertion) order, not seat order from the dealer; a 3-way chop of a
301-chip pot thus awards {101, 100, 100}, the first listed winner
taking 101. -/
theorem single_pot_chop_split (amount : Int) (winners : List String)
    (hnd : winners.Nodup) (i : Nat) (hi : i < winners.length) :
    calculateWinnings [⟨amount, winners⟩]
        (fun idx => if idx = 0 then some winners else none)
        (winners.getD i "") =
      Int.fdiv amount winners.length +
        (if (i : Int) < Int.fmod amount winners.length then 1 else 0) := by
  have hne : winners.isEmpty = false := by
    cases winners
    · simp at hi
    · rfl
  rw [show calculateWinnings [⟨amount, winners⟩]
      (fun idx => if idx = 0 then some winners else none) =
    (if winners.isEmpty then (fun _ => (0 : Int))
      else distributeLoop (Int.fdiv amount winners.length)
        (Int.fmod amount winners.length) winners 0 (fun _ => 0)) from rfl]
  rw [hne]
  rw [if_neg (by simp)]
  rw [distributeLoop_getD _ _ winners hnd i 0 _ hi]
  simp

/-- Witness for the amended C4: the 301-chip three-way chop pays the
first listed winner 101. -/
theorem single_pot_chop_split_witness :
    calculateWinnings [⟨301, ["a", "b", "c"]⟩]
        (fun idx => if idx = 0 then some ["a", "b", "c"] else none) "a" = 101 := by
  have h := single_pot_chop_split 301 ["a", "b", "c"] (by decide) 0 (by decide)
  exact h.trans (by decide)

/-- One contributor's share at a level is the increment of
`min(contribution, ·)` between the previous and the current level. -/
theorem levelShare_eq (P L c : Int) (h : P ≤ L) :
    levelShare P L c = min c L - min c P := by
  unfold levelShare
  dsimp only
  simp only [min_def]
  split_ifs <;> omega

/-- Shares are never negative. -/
theorem levelShare_nonneg (P L c : Int) : 0 ≤ levelShare P L c := by
  unfold levelShare
  dsimp only
  split_ifs <;> omega

/-- A level's pot amount is never negative. -/
theorem levelPotAmount_nonneg (contribs : List (String × Int)) (R : List String)
    (P L : Int) : 0 ≤ levelPotAmount contribs R P L := by
  unfold levelPotAmount
  refine List.sum_nonneg ?_
  intro x hx
  obtain ⟨e, _, rfl⟩ := List.mem_map.mp hx
  split_ifs
  · exact levelShare_nonneg P L e.2
  · exact le_refl 0

/-- With every removed contributor already fully collected (their total
at most the previous level), a level's pot amount is the increment of
the summed `min(contribution, ·)` between the previous and the current
level. -/
theorem levelPotAmount_eq (contribs : List (String × Int)) (R : List String)
    (P L : Int) (hPL : P ≤ L)
    (hrem : ∀ e ∈ contribs, e.1 ∉ R → e.2 ≤ P) :
    levelPotAmount contribs R P L =
      (contribs.map (fun e => min e.2 L)).sum - (contribs.map (fun e => min e.2 P)).sum := by
  induction contribs with
  | nil => simp [levelPotAmount]
  | cons e rest ih =>
      have hrest : ∀ e' ∈ rest, e'.1 ∉ R → e'.2 ≤ P := fun e' he' =>
        hrem e' (List.mem_cons_of_mem e he')
      have hstep : (if e.1 ∈ R then levelShare P L e.2 else 0) =
          min e.2 L - min e.2 P := by
        split_ifs with hm
        · exact levelShare_eq P L e.2 hPL
        · have he : e.2 ≤ P := hrem e (List.mem_cons_self e rest) hm
          have h1 : min e.2 L = e.2 := min_eq_left (by omega)
          have h2 : min e.2 P = e.2 := min_eq_left he
          omega
      unfold levelPotAmount at ih ⊢
      simp only [List.map_cons, List.sum_cons]
      rw [hstep, ih hrest]
      ring

/-- A contributor who is never listed all-in survives the whole side
pot loop in the remaining set. -/
theorem mem_sidePotsLoop_remaining (contribs allIn : List (String × Int))
    (levels : List Int) :
    ∀ (P : Int) (R : List String) (u : String), u ∈ R →
      (∀ a ∈ allIn, ¬ a.1 = u) →
      u ∈ (sidePotsLoop contribs allIn levels P R).2 := by
  induction levels with
  | nil => intro P R u hu _; exact hu
  | cons L rest ih =>
      intro P R u hu hno
      have hu' : u ∈ removeAtLevel allIn L R := by
        unfold removeAtLevel
        refine List.mem_filter.mpr ⟨hu, ?_⟩
        simp only [Bool.not_eq_true', List.any_eq_false]
        intro a ha
        simp [hno a ha]
      have := ih L (removeAtLevel allIn L R) u hu' hno
      rcases hl : sidePotsLoop contribs allIn rest L (removeAtLevel allIn L R) with ⟨pots, Rf⟩
      rw [hl] at this
      dsimp only at this
      unfold sidePotsLoop
      dsimp only
      rw [hl]
      exact this

/-- Sum of the amounts built by the side pot loop: the increment of the
summed `min(contribution, ·)` between the starting level and the last
level processed. -/
theorem sidePotsLoop_amount_sum (contribs allIn : List (String × Int))
    (hallin : ∀ a ∈ allIn, ∀ e ∈ contribs, e.1 = a.1 → e.2 = a.2) :
    ∀ (levels : List Int) (P : Int) (R : List String),
      List.Sorted (· ≤ ·) (P :: levels) →
      (∀ e ∈ contribs, e.1 ∉ R → e.2 ≤ P) →
      (((sidePotsLoop contribs allIn levels P R).1.map SidePot.amount).sum
        = (contribs.map (fun e => min e.2 (levels.getLastD P))).sum
          - (contribs.map (fun e => min e.2 P)).sum) := by
  intro levels
  induction levels with
  | nil =>
      intro P R _ _
      simp [sidePotsLoop, List.getLastD]
  | cons L rest ih =>
      intro P R hsorted hrem
      have hPL : P ≤ L :=
        (List.sorted_cons.mp hsorted).1 L (List.mem_cons_self L rest)
      have hsorted' : List.Sorted (· ≤ ·) (L :: rest) :=
        (List.sorted_cons.mp hsorted).2
      have hrem' : ∀ e ∈ contribs, e.1 ∉ removeAtLevel allIn L R → e.2 ≤ L := by
        intro e he hnot
        by_cases hmem : e.1 ∈ R
        · have : ∃ a ∈ allIn, a.1 = e.1 ∧ a.2 = L := by
            unfold removeAtLevel at hnot
            by_contra hno
            push_neg at hno
            refine hnot (List.mem_filter.mpr ⟨hmem, ?_⟩)
            simp only [Bool.not_eq_true', List.any_eq_false]
            intro a ha
            by_cases h1 : a.1 = e.1
            · simp [h1, hno a ha h1]
            · simp [h1]
          obtain ⟨a, ha, ha1, ha2⟩ := this
          have := hallin a ha e he ha1.symm
          omega
        · have := hrem e he hmem
          omega
      have hIH := ih L (removeAtLevel allIn L R) hsorted' hrem'
      have hamt := levelPotAmount_eq contribs R P L hPL hrem
      rcases hl : sidePotsLoop contribs allIn rest L (removeAtLevel allIn L R)
        with ⟨pots, Rf⟩
      rw [hl] at hIH
      dsimp only at hIH
      unfold sidePotsLoop
      dsimp only
      rw [hl]
      dsimp only
      rw [List.getLastD_cons]
      split_ifs with hpos
      · simp only [List.map_cons, List.sum_cons]
        rw [hIH, hamt]
        ring
      · have hz : levelPotAmount contribs R P L = 0 := by
          have := levelPotAmount_nonneg contribs R P L
          omega
        rw [hIH]
        rw [hz] at hamt
        omega

/-- Sums of mapped differences split. -/
theorem map_sub_sum (l : List (String × Int)) (f g : String × Int → Int) :
    (l.map (fun e => f e - g e)).sum = (l.map f).sum - (l.map g).sum := by
  induction l with
  | nil => simp
  | cons e rest ih => simp only [List.map_cons, List.sum_cons, ih]; ring

/-- Every member of a sorted list is at most its last element. -/
theorem sorted_le_getLastD : ∀ (l : List Int), List.Sorted (· ≤ ·) l →
    ∀ x ∈ l, ∀ d : Int, x ≤ l.getLastD d
  | [], _, x, hx, _ => absurd hx (List.not_mem_nil x)
  | [a], _, x, hx, d => by
      obtain rfl : x = a := by simpa using hx
      simp [List.getLastD]
  | a :: b :: rest, hs, x, hx, d => by
      rw [List.getLastD_cons]
      have hs' : List.Sorted (· ≤ ·) (b :: rest) := (List.sorted_cons.mp hs).2
      rcases List.mem_cons.mp hx with rfl | hx'
      · have hab : x ≤ b := (List.sorted_cons.mp hs).1 b (List.mem_cons_self b rest)
        exact le_trans hab
          (sorted_le_getLastD (b :: rest) hs' b (List.mem_cons_self b rest) x)
      · exact sorted_le_getLastD (b :: rest) hs' x hx' a

/-- `get_contribution` of any user is nonnegative when all recorded
contributions are. -/
theorem contribGet_nonneg (c : List (String × Int))
    (h : ∀ e ∈ c, 0 ≤ e.2) (u : String) : 0 ≤ contribGet c u := by
  induction c with
  | nil => exact le_refl 0
  | cons e rest ih =>
      unfold contribGet
      split_ifs
      · exact h e (List.mem_cons_self e rest)
      · exact ih fun e' he' => h e' (List.mem_cons_of_mem e he')

/-- With distinct keys, `get_contribution` returns each entry's
recorded total. -/
theorem contribGet_eq_of_mem (c : List (String × Int))
    (hnd : (c.map Prod.fst).Nodup) :
    ∀ e ∈ c, contribGet c e.1 = e.2 := by
  induction c with
  | nil => intro e he; exact absurd he (List.not_mem_nil e)
  | cons x rest ih =>
      intro e he
      simp only [List.map_cons, List.nodup_cons] at hnd
      rcases List.mem_cons.mp he with rfl | he'
      · unfold contribGet
        rw [if_pos rfl]
      · unfold contribGet
        split_ifs with hx
        · exact absurd (hx ▸ List.mem_map_of_mem Prod.fst he') hnd.1
        · exact ih hnd.2 e he'

/-- C1: after `calculate_side_pots` is called with an all-in map in
which every all-in player's recorded total equals their entry in the
contribution map, the side pot amounts sum to the sum of all per-user
contributions — equivalently, to `main_pot`.  (The other hypotheses say
the pot is a well-formed product of `add_bet`: `main_pot` is the sum of
the contribution dict, whose keys are distinct and whose totals are
nonnegative.) -/
theorem side_pot_conservation (pot : Pot) (allIn : List (String × Int))
    (hmain : pot.mainPot = (pot.contributions.map Prod.snd).sum)
    (hnd : (pot.contributions.map Prod.fst).Nodup)
    (hnn : ∀ e ∈ pot.contributions, 0 ≤ e.2)
    (hai : ∀ a ∈ allIn, contribGet pot.contributions a.1 = a.2) :
    (((pot.calculateSidePots allIn).sidePots.map SidePot.amount).sum
      = (pot.contributions.map Prod.snd).sum)
    ∧ (((pot.calculateSidePots allIn).sidePots.map SidePot.amount).sum
      = pot.mainPot) := by
  suffices h : ((pot.calculateSidePots allIn).sidePots.map SidePot.amount).sum
      = (pot.contributions.map Prod.snd).sum by
    exact ⟨h, h.trans hmain.symm⟩
  unfold Pot.calculateSidePots
  by_cases hempty : allIn.isEmpty
  · rw [if_pos hempty]
    simp [hmain]
  · rw [if_neg hempty]
    dsimp only
    set levels := List.insertionSort (· ≤ ·) (allIn.map Prod.snd).dedup with hlev
    have hsortedL : List.Sorted (· ≤ ·) levels := by
      rw [hlev]; exact List.sorted_insertionSort _ _
    have hmemL : ∀ x : Int, x ∈ levels ↔ x ∈ allIn.map Prod.snd := by
      intro x
      rw [hlev]
      constructor
      · intro hx
        exact List.mem_dedup.mp ((List.perm_insertionSort _ _).mem_iff.mp hx)
      · intro hx
        exact (List.perm_insertionSort _ _).mem_iff.mpr (List.mem_dedup.mpr hx)
    have hallin : ∀ a ∈ allIn, ∀ e ∈ pot.contributions, e.1 = a.1 → e.2 = a.2 := by
      intro a ha e he h1
      have h2 := contribGet_eq_of_mem pot.contributions hnd e he
      rw [h1] at h2
      exact h2.symm.trans (hai a ha)
    have hLnn : ∀ x ∈ levels, (0 : Int) ≤ x := by
      intro x hx
      obtain ⟨a, ha, rfl⟩ := List.mem_map.mp ((hmemL x).mp hx)
      rw [← hai a ha]
      exact contribGet_nonneg pot.contributions hnn a.1
    have hsorted0 : List.Sorted (· ≤ ·) ((0 : Int) :: levels) :=
      List.sorted_cons.mpr ⟨hLnn, hsortedL⟩
    have hrem0 : ∀ e ∈ pot.contributions, e.1 ∉ pot.contributions.map Prod.fst →
        e.2 ≤ (0 : Int) := by
      intro e he hmem
      exact absurd (List.mem_map_of_mem Prod.fst he) hmem
    rcases hloop : sidePotsLoop pot.contributions allIn levels 0
        (pot.contributions.map Prod.fst) with ⟨pots, Rf⟩
    have hsum := sidePotsLoop_amount_sum pot.contributions allIn hallin levels 0
      (pot.contributions.map Prod.fst) hsorted0 hrem0
    rw [hloop] at hsum
    dsimp only at hsum
    have hF0 : (pot.contributions.map (fun e => min e.2 (0 : Int))).sum = 0 := by
      apply List.sum_eq_zero
      intro x hx
      obtain ⟨e, he, rfl⟩ := List.mem_map.mp hx
      exact min_eq_right (hnn e he)
    rw [hF0, sub_zero] at hsum
    have hFle : (pot.contributions.map (fun e => min e.2 (levels.getLastD 0))).sum ≤
        (pot.contributions.map Prod.snd).sum := by
      apply List.sum_le_sum
      intro e _
      exact min_le_left _ _
    dsimp only
    split_ifs with hcond
    · rw [List.map_append, List.sum_append]
      simp only [List.map_cons, List.map_nil, List.sum_cons, List.sum_nil]
      rw [hsum, hmain]
      ring
    · rw [hsum]
      by_contra hne
      have hres : 0 < (pot.contributions.map Prod.snd).sum -
          (pot.contributions.map (fun e => min e.2 (levels.getLastD 0))).sum := by
        rcases lt_or_eq_of_le hFle with h | h
        · omega
        · exact absurd h hne
      have hex : ∃ e ∈ pot.contributions, levels.getLastD 0 < e.2 := by
        by_contra hall
        push_neg at hall
        have : (pot.contributions.map Prod.snd).sum ≤
            (pot.contributions.map (fun e => min e.2 (levels.getLastD 0))).sum := by
          apply List.sum_le_sum
          intro e he
          exact le_min (le_refl e.2) (hall e he)
        omega
      obtain ⟨e, he, hgt⟩ := hex
      have hnotallin : ∀ a ∈ allIn, ¬ a.1 = e.1 := by
        intro a ha h1
        have heq : e.2 = a.2 := hallin a ha e he h1.symm
        have hmem : a.2 ∈ levels := (hmemL a.2).mpr (List.mem_map_of_mem Prod.snd ha)
        have := sorted_le_getLastD levels hsortedL a.2 hmem 0
        omega
      have hRf : e.1 ∈ Rf := by
        have := mem_sidePotsLoop_remaining pot.contributions allIn levels 0
          (pot.contributions.map Prod.fst) e.1 (List.mem_map_of_mem Prod.fst he)
          hnotallin
        rw [hloop] at this
        exact this
      apply hcond
      simp only [Bool.and_eq_true, decide_eq_true_iff, Bool.not_eq_true']
      constructor
      · rw [hsum, hmain]
        omega
      · rw [List.isEmpty_eq_false_iff_exists_mem]
        exact ⟨e.1, hRf⟩

/-- Witness for C1 at the concrete pot A=30, B=60, C=100 with A and B
all-in at their totals: the three derived pots (90, 60, 40) sum back to
the 190-chip total. -/
theorem side_pot_conservation_witness :
    (((tripleBetPot.calculateSidePots [("A", 30), ("B", 60)]).sidePots.map
      SidePot.amount).sum = 190) := by
  have h := side_pot_conservation tripleBetPot [("A", 30), ("B", 60)]
    (by decide) (by decide) (by decide) (by decide)
  exact h.1.trans (by decide)

end Poker
